import Mathlib

/-!
Shallow embedding of the vscode-iris-i18n extension (src/extension.ts) and
proofs about it.  Translation indexes and JS objects are modelled as
association lists in property-insertion order; the reference scanner models
the regular expression used by updateDecorationsForWorkspace; the annotation
planner models the decoration loop of that function; the locale index builder
models updateTranslationsForWorkspace; the workspace lifecycle handlers model
the corresponding callbacks registered in activate.
-/

namespace IrisI18n

/-- Lookup of a property on a JS object modelled as an association list in
insertion order: the first binding for the key wins (bindings are unique in
real JS objects). -/
def objGet {α : Type} : List (String × α) → String → Option α
  | [], _ => none
  | p :: rest, k => if p.1 = k then some p.2 else objGet rest k

/-- Property write on a JS object: an existing binding is updated in place
(keeping its position in insertion order), a new key is appended at the end,
as JS string-keyed objects do. -/
def objSet {α : Type} : List (String × α) → String → α → List (String × α)
  | [], k, v => [(k, v)]
  | p :: rest, k, v => if p.1 = k then (k, v) :: rest else p :: objSet rest k v

/-- Left-biased choice on optional strings; used to state lookup lemmas. -/
def orO (a b : Option String) : Option String :=
  match a with
  | some v => some v
  | none => b

/-- Flat key-to-string JSON document, in property order. -/
abbrev Doc := List (String × String)

/-- The in-memory translation index: locale code to merged document
(`state.translations` in extension.ts). -/
abbrev Translations := List (String × Doc)

/-- JS string coercion of `x || y`: the empty string and an absent value are
falsy, so both fall back to the default.  Models the expression
`state.translations[lang]?.[key] || match[1]` (extension.ts lines 143, 153). -/
def jsOr (v : Option String) (d : String) : String :=
  match v with
  | some s => if s = "" then d else s
  | none => d

/-! ## Reference scanner

Models the loop `while ((match = regex.exec(text)) !== null)` with
`regex = /ctx\.Tr\("(.+?)"\)/g` (extension.ts lines 128-136).  The lazy
group `(.+?)` takes the shortest nonempty run of non-line-terminator
characters that is followed by a double quote and a closing parenthesis. -/

/-- Characters not matched by the dot of a JavaScript regular expression
without the dotAll flag. -/
def isLineTerminator (c : Char) : Bool :=
  c == '\n' || c == '\r' || c == Char.ofNat 8232 || c == Char.ofNat 8233

/-- True when the character list starts with the closing delimiter of the
pattern: a double quote immediately followed by a closing parenthesis. -/
def closeParen : List Char → Bool
  | a :: b :: _ => a == '"' && b == ')'
  | _ => false

/-- Lazy capture of the regex group `(.+?)` followed by the literal
delimiter: returns the shortest nonempty prefix of the input that is
immediately followed by a double quote and a closing parenthesis, together
with the characters after that delimiter. -/
def grabKey : List Char → Option (List Char × List Char)
  | [] => none
  | c :: rest =>
    if isLineTerminator c then none
    else if closeParen rest then some ([c], rest.drop 2)
    else
      match grabKey rest with
      | some (k, r) => some (c :: k, r)
      | none => none

/-- The fixed literal part of the pattern before the captured key. -/
def trPat : List Char := ['c', 't', 'x', '.', 'T', 'r', '(', '"']

/-- Attempt to match the whole pattern at the head of the input; on success
returns the captured key and the characters after the match. -/
def matchTr (cs : List Char) : Option (List Char × List Char) :=
  if trPat.isPrefixOf cs then grabKey (cs.drop 8) else none

/-- One occurrence of a translation-lookup call site: the key literal and
its half-open offset range in the document text.  In the source (lines
134-135) the range is `match.index + 8` to `match.index + match[0].length - 2`,
which covers exactly the characters of the key. -/
structure Reference where
  key : String
  start : Nat
  stop : Nat
deriving DecidableEq

/-- Fuel-driven left-to-right scan: at each position try the pattern; on a
match emit a reference and continue after the match (the `g` flag resumes
at `lastIndex`), otherwise advance one character.  The fuel is the length of
the text, which is enough because every step consumes at least one
character. -/
def scanFuel : Nat → List Char → Nat → List Reference
  | 0, _, _ => []
  | _ + 1, [], _ => []
  | fuel + 1, c :: cs, pos =>
    match matchTr (c :: cs) with
    | some (k, rest) =>
      Reference.mk (String.mk k) (pos + 8) (pos + 8 + k.length)
        :: scanFuel fuel rest (pos + 10 + k.length)
    | none => scanFuel fuel cs (pos + 1)

/-- The reference scanner over a text snapshot. -/
def scan (s : String) : List Reference := scanFuel s.data.length s.data 0

/-- A double quote that is not preceded by a backslash, anywhere in the
key; auxiliary carries the previous character. -/
def hasUnescapedQuoteAux : Option Char → List Char → Bool
  | _, [] => false
  | prev, c :: rest =>
    (c == '"' && prev != some '\\') || hasUnescapedQuoteAux (some c) rest

/-- True when the string contains a double quote not preceded by a
backslash. -/
def hasUnescapedQuote (k : String) : Bool := hasUnescapedQuoteAux none k.data

/-- Every character of the key can be matched by the regex dot. -/
def keyCharsOk (k : List Char) : Prop := ∀ c ∈ k, isLineTerminator c = false

/-- No occurrence of the closing delimiter (double quote then closing
parenthesis) begins at any position of the key after the first: this is
what the lazy shortest-match actually guarantees about captured keys. -/
def innerCloseFree (k : List Char) : Prop :=
  ∀ i, 1 ≤ i → i + 1 < k.length →
    ¬(k.get? i = some '"' ∧ k.get? (i + 1) = some ')')

/-! ## Annotation planner

Models the body of the scan loop in updateDecorationsForWorkspace
(extension.ts lines 133-167): each reference is classified by whether the
current selection intersects its range; a reference whose range does NOT
intersect the selection gets an inline (in-place) annotation, a reference
whose range DOES intersect the selection gets a hover annotation. -/

/-- VS Code `Range.intersection` is defined on closed position intervals:
the two ranges intersect (possibly in an empty range, which is still a
truthy object) exactly when the maximum of the starts is at most the
minimum of the ends. -/
def rangesIntersect (selStart selEnd rStart rEnd : Nat) : Bool :=
  decide (max selStart rStart ≤ min selEnd rEnd)

/-- Resolution of a key in the preferred display locale:
`state.translations[state.displayLanguage]?.[key]` (line 143); `none` for
the display language models an unset `display_language`. -/
def lookupPref (t : Translations) (lang : Option String) (k : String) : Option String :=
  match lang with
  | none => none
  | some l =>
    match objGet t l with
    | some m => objGet m k
    | none => none

/-- Content of an inline annotation: the resolved preferred-locale text with
the raw key as fallback (line 143). -/
def inlineText (t : Translations) (lang : Option String) (k : String) : String :=
  jsOr (lookupPref t lang k) k

/-- Hover lines: one line per locale present in the index, in index order,
each the locale code, a colon and the translated text or the raw key as
fallback (lines 150-155). -/
def hoverLines (t : Translations) (k : String) : List String :=
  t.map (fun p => p.1 ++ ": " ++ jsOr (objGet p.2 k) k)

/-- The markdown body built from the hover lines (lines 156-158);
presentation only, kept for fidelity. -/
def hoverMessage (lines : List String) : String :=
  "#### iris i18n \n<div style=\"line-height:20px;\">"
    ++ String.intercalate "</div><div style=\"line-height:20px;\">" lines
    ++ "</div>"

/-- One entry of the `decorationsArray` decoration set (hover-bearing). -/
structure HoverPayload where
  ref : Reference
  lines : List String
deriving DecidableEq

/-- One entry of the `inplaceAnnotations` decoration set (inline
replacement preview). -/
structure InlinePayload where
  ref : Reference
  contentText : String
deriving DecidableEq

/-- The decoration loop: for each reference in order, push a hover
annotation when the selection intersects its range, and an inline
annotation otherwise (the source tests `!selection.intersection(range)`
first and pushes the inline annotation in that branch; this is the same
function with the branches written positively).  Both output lists preserve
the left-to-right order of the references. -/
def plan (t : Translations) (displayLanguage : Option String) (selStart selEnd : Nat) :
    List Reference → List HoverPayload × List InlinePayload
  | [] => ([], [])
  | r :: rest =>
    if rangesIntersect selStart selEnd r.start r.stop then
      (HoverPayload.mk r (hoverLines t r.key)
          :: (plan t displayLanguage selStart selEnd rest).1,
        (plan t displayLanguage selStart selEnd rest).2)
    else
      ((plan t displayLanguage selStart selEnd rest).1,
        InlinePayload.mk r (inlineText t displayLanguage r.key)
          :: (plan t displayLanguage selStart selEnd rest).2)

/-! ## Locale index builder

Models updateTranslationsForWorkspace (extension.ts lines 59-83): each
immediate directory entry of the locale root that is itself a directory
becomes a locale; inside it every entry whose `path.extname` is `.json` is
read and JSON-parsed, and the parsed flat documents are merged with
`Object.assign` into that locale's mapping, in listing order.  A parse (or
read) failure is caught and the file skipped.  File contents are modelled
directly by their parse result: `some doc` for a document that parses as a
flat object, `none` for one whose read or parse throws. -/

/-- An immediate entry of the locale root: a plain file (skipped by the
`isDirectory` test) or a locale directory listing named files with their
parse results. -/
inductive Entry : Type
  | file : Entry
  | dir : List (String × Option Doc) → Entry
deriving DecidableEq

/-- The listing of the locale root directory, in directory-listing order. -/
abbrev Tree := List (String × Entry)

/-- Index of the last dot in the character list (running index `i`,
accumulator holds the last dot seen so far). -/
def lastDotIdx : List Char → Nat → Option Nat → Option Nat
  | [], _, acc => acc
  | c :: rest, i, acc => lastDotIdx rest (i + 1) (if c = '.' then some i else acc)

/-- Node's `path.extname` on a plain file name: the suffix starting at the
last dot, or the empty string when there is no dot or the only dot is the
leading character of the name. -/
def extname (s : String) : String :=
  match lastDotIdx s.data 0 none with
  | none => ""
  | some 0 => ""
  | some i => String.mk (s.data.drop i)

/-- `Object.assign(target, source)`: copy the source's properties into the
target in source order, overwriting existing keys (extension.ts line 74). -/
def assignDoc : Doc → Doc → Doc
  | m, [] => m
  | m, p :: rest => assignDoc (objSet m p.1 p.2) rest

/-- Fold of one locale directory's listing into its mapping, starting from
the accumulator: `.json` entries that parse are assigned in, everything
else is skipped (lines 69-79). -/
def buildLocaleAux (m : Doc) : List (String × Option Doc) → Doc
  | [] => m
  | f :: rest =>
    if extname f.1 = ".json" then
      match f.2 with
      | some d => buildLocaleAux (assignDoc m d) rest
      | none => buildLocaleAux m rest
    else buildLocaleAux m rest

/-- The merged mapping of one locale directory (starts from the fresh empty
object assigned at line 68). -/
def buildLocale (files : List (String × Option Doc)) : Doc :=
  buildLocaleAux [] files

/-- Walk of the root listing accumulating `state.translations`: directory
entries get their merged mapping, plain files are skipped (lines 65-81). -/
def buildAux (acc : Translations) : Tree → Translations
  | [] => acc
  | (_, Entry.file) :: rest => buildAux acc rest
  | (n, Entry.dir files) :: rest => buildAux (objSet acc n (buildLocale files)) rest

/-- The index build over a locale root listing (`state.translations = {}`
followed by the forEach walk). -/
def build (t : Tree) : Translations := buildAux [] t

/-- Names of the entries of the root that are directories, in listing
order. -/
def dirNames : Tree → List String
  | [] => []
  | (_, Entry.file) :: rest => dirNames rest
  | (n, Entry.dir _) :: rest => n :: dirNames rest

/-- Value of a key in one flat document, later duplicate properties
preferred (as in a parsed JSON object). -/
def docGet : Doc → String → Option String
  | [], _ => none
  | p :: rest, k => orO (docGet rest k) (if p.1 = k then some p.2 else none)

/-- Stated from the spec's words: on key collision the value from the
later-listed document wins, i.e. lookup prefers later documents. -/
def lastDocWins : List Doc → String → Option String
  | [], _ => none
  | d :: rest, k => orO (lastDocWins rest k) (docGet d k)

/-- The parse results of the `.json` entries of one locale directory, in
listing order. -/
def jsonDocs : List (String × Option Doc) → List Doc
  | [] => []
  | f :: rest =>
    if extname f.1 = ".json" then
      match f.2 with
      | some d => d :: jsonDocs rest
      | none => jsonDocs rest
    else jsonDocs rest

/-! ## Workspace session lifecycle

Models the handlers registered in activate (extension.ts lines 175-243). -/

/-- The externally visible resources of one workspace session: the two
rendered decoration sets (owned by `decorationType` and
`inplaceAnnotationType`) and the two `fs.watch` subscriptions (locale tree
and descriptor file). -/
structure SessionWorld where
  hoverDecorations : List Reference
  inlineDecorations : List Reference
  localeWatcherOpen : Bool
  configWatcherOpen : Bool
deriving DecidableEq

/-- The workspace-folder-removed handler (lines 179-183): it calls
`state?.decorationType?.dispose()`, which clears the decorations rendered
through `decorationType` (the hover-bearing set), and deletes the state
entry.  `inplaceAnnotationType` is never disposed, so the inline
decoration set stays rendered, and the `fs.watch` handles were never stored
by watchLocaleFilesForWorkspace / watchConfigFileForWorkspace, so neither
watcher is closed. -/
def handleWorkspaceFolderRemoved (w : SessionWorld) : SessionWorld :=
  { w with hoverDecorations := [] }

/-- The document identity the guards inspect: URI scheme and filesystem
path. -/
structure EditorDoc where
  scheme : String
  fsPath : String
deriving DecidableEq

/-- JS `String.prototype.startsWith`. -/
def jsStartsWith (s pre : String) : Bool := List.isPrefixOf pre.data s.data

/-- The guard applied to an editor before a session adopts it (extension.ts
lines 208-212 and 222-226): the document's URI scheme must be `file` and
its fsPath must start, as a string, with the workspace folder's fsPath. -/
def editorMatchesWorkspace (rootFsPath : String) (d : EditorDoc) : Bool :=
  (d.scheme == "file") && jsStartsWith d.fsPath rootFsPath

/-- Stated from the spec's words, for comparison with the guard: a document
genuinely lies under the project root directory when its path continues the
root path past a path separator. -/
def documentLiesUnderRoot (rootFsPath fsPath : String) : Bool :=
  jsStartsWith fsPath (rootFsPath ++ "/")

/-- The per-session state the active-editor handler updates, plus a counter
of decoration recomputations triggered. -/
structure SessState where
  activeEditor : Option EditorDoc
  recomputations : Nat
deriving DecidableEq

/-- The onDidChangeActiveTextEditor handler (lines 221-230): when the new
editor passes the guard, the session adopts it and recomputes decorations;
otherwise nothing happens to this session. -/
def handleActiveEditorChange (rootFsPath : String) (ed : Option EditorDoc)
    (st : SessState) : SessState :=
  match ed with
  | none => st
  | some d =>
    if editorMatchesWorkspace rootFsPath d then
      SessState.mk (some d) (st.recomputations + 1)
    else st

/-! ## Helper lemmas about the JS object model -/

theorem objGet_objSet {α : Type} (m : List (String × α)) (k k' : String) (v : α) :
    objGet (objSet m k v) k' = if k' = k then some v else objGet m k' := by
  induction m with
  | nil =>
    by_cases h : k' = k
    · simp [objSet, objGet, h]
    · simp [objSet, objGet, h, Ne.symm h]
  | cons p rest ih =>
    by_cases h1 : p.1 = k
    · by_cases h2 : k' = k
      · simp [objSet, objGet, h1, h2]
      · simp [objSet, objGet, h1, h2, Ne.symm h2]
    · by_cases h2 : k' = k
      · subst h2
        simp [objSet, objGet, h1, ih]
      · simp [objSet, objGet, h1, h2, ih]

theorem objSet_map_fst {α : Type} (m : List (String × α)) (k : String) (v : α)
    (h : k ∉ m.map Prod.fst) :
    (objSet m k v).map Prod.fst = m.map Prod.fst ++ [k] := by
  induction m with
  | nil => simp [objSet]
  | cons p rest ih =>
    simp only [List.map_cons, List.mem_cons] at h
    push_neg at h
    have hne : p.1 ≠ k := fun hh => h.1 hh.symm
    simp [objSet, hne, ih h.2]

theorem objGet_mem {α : Type} (m : List (String × α)) (k : String) (v : α)
    (h : objGet m k = some v) : (k, v) ∈ m := by
  induction m with
  | nil => simp [objGet] at h
  | cons p rest ih =>
    obtain ⟨a, b⟩ := p
    by_cases hk : a = k
    · subst hk
      simp [objGet] at h
      simp [h]
    · simp [objGet, hk] at h
      exact List.mem_cons_of_mem _ (ih h)

theorem orO_assoc (a b c : Option String) : orO (orO a b) c = orO a (orO b c) := by
  cases a <;> simp [orO]

theorem orO_none_right (a : Option String) : orO a none = a := by
  cases a <;> simp [orO]

/-! ## Helper lemmas about the planner -/

theorem mem_plan_hover (t : Translations) (dl : Option String) (ss se : Nat)
    (refs : List Reference) (r : Reference) (hr : r ∈ refs)
    (hi : rangesIntersect ss se r.start r.stop = true) :
    HoverPayload.mk r (hoverLines t r.key) ∈ (plan t dl ss se refs).1 := by
  induction refs with
  | nil => cases hr
  | cons a rest ih =>
    rcases List.mem_cons.mp hr with h | h
    · subst h
      simp [plan, hi]
    · by_cases hb : rangesIntersect ss se a.start a.stop = true
      · simp [plan, hb]
        exact Or.inr (ih h)
      · simp only [Bool.not_eq_true] at hb
        simp [plan, hb]
        exact ih h

theorem mem_plan_inline (t : Translations) (dl : Option String) (ss se : Nat)
    (refs : List Reference) (r : Reference) (hr : r ∈ refs)
    (hni : rangesIntersect ss se r.start r.stop = false) :
    InlinePayload.mk r (inlineText t dl r.key) ∈ (plan t dl ss se refs).2 := by
  induction refs with
  | nil => cases hr
  | cons a rest ih =>
    rcases List.mem_cons.mp hr with h | h
    · subst h
      simp [plan, hni]
    · by_cases hb : rangesIntersect ss se a.start a.stop = true
      · simp [plan, hb]
        exact ih h
      · simp only [Bool.not_eq_true] at hb
        simp [plan, hb]
        exact Or.inr (ih h)

/-! ## Helper lemmas about the index builder -/

theorem objGet_assignDoc (d : Doc) : ∀ (m : Doc) (k : String),
    objGet (assignDoc m d) k = orO (docGet d k) (objGet m k) := by
  induction d with
  | nil => intro m k; simp [assignDoc, docGet, orO]
  | cons p rest ih =>
    intro m k
    simp only [assignDoc, docGet]
    rw [ih, objGet_objSet]
    cases hd : docGet rest k with
    | some v => simp [orO]
    | none =>
      by_cases hk : p.1 = k
      · simp [orO, hk]
      · have hk2 : ¬k = p.1 := fun hh => hk hh.symm
        simp [orO, hk, hk2]

theorem objGet_buildLocaleAux (files : List (String × Option Doc)) :
    ∀ (m : Doc) (k : String),
    objGet (buildLocaleAux m files) k = orO (lastDocWins (jsonDocs files) k) (objGet m k) := by
  induction files with
  | nil => intro m k; simp [buildLocaleAux, jsonDocs, lastDocWins, orO]
  | cons f rest ih =>
    intro m k
    by_cases he : extname f.1 = ".json"
    · cases hc : f.2 with
      | none => simp [buildLocaleAux, jsonDocs, he, hc, ih]
      | some d =>
        simp only [buildLocaleAux, jsonDocs, he, hc, if_pos]
        rw [ih, objGet_assignDoc, lastDocWins, orO_assoc]
    · simp [buildLocaleAux, jsonDocs, he, ih]

theorem objGet_buildLocale (files : List (String × Option Doc)) (k : String) :
    objGet (buildLocale files) k = lastDocWins (jsonDocs files) k := by
  rw [buildLocale, objGet_buildLocaleAux]
  simp [objGet, orO_none_right]

theorem mem_dirNames (t : Tree) (l : String) (files : List (String × Option Doc))
    (h : (l, Entry.dir files) ∈ t) : l ∈ dirNames t := by
  induction t with
  | nil => cases h
  | cons e rest ih =>
    obtain ⟨n, en⟩ := e
    rcases List.mem_cons.mp h with h1 | h1
    · cases h1
      simp [dirNames]
    · cases en with
      | file => simpa [dirNames] using ih h1
      | dir fl => simp [dirNames, ih h1]

theorem map_fst_buildAux (t : Tree) : ∀ acc : Translations,
    (dirNames t).Nodup → (∀ n ∈ dirNames t, n ∉ acc.map Prod.fst) →
    (buildAux acc t).map Prod.fst = acc.map Prod.fst ++ dirNames t := by
  induction t with
  | nil => intro acc _ _; simp [buildAux, dirNames]
  | cons e rest ih =>
    intro acc hnd hdisj
    obtain ⟨n, en⟩ := e
    cases en with
    | file =>
      simp only [dirNames] at hnd hdisj ⊢
      simp only [buildAux]
      exact ih acc hnd hdisj
    | dir files =>
      simp only [dirNames] at hnd hdisj ⊢
      have hn : n ∉ acc.map Prod.fst := hdisj n (List.mem_cons_self n _)
      have hset := objSet_map_fst acc n (buildLocale files) hn
      simp only [buildAux]
      rw [ih (objSet acc n (buildLocale files)) (List.nodup_cons.mp hnd).2]
      · rw [hset, List.append_assoc]
        simp
      · intro m hm
        rw [hset]
        simp only [List.mem_append, List.mem_singleton]
        rintro (hin | hin)
        · exact hdisj m (List.mem_cons_of_mem _ hm) hin
        · exact (List.nodup_cons.mp hnd).1 (hin ▸ hm)

theorem objGet_buildAux_not_mem (t : Tree) : ∀ (acc : Translations) (l : String),
    l ∉ dirNames t → objGet (buildAux acc t) l = objGet acc l := by
  induction t with
  | nil => intro acc l _; simp [buildAux]
  | cons e rest ih =>
    intro acc l hl
    obtain ⟨n, en⟩ := e
    cases en with
    | file =>
      simp only [dirNames] at hl
      simpa [buildAux] using ih acc l hl
    | dir files =>
      simp only [dirNames, List.mem_cons] at hl
      push_neg at hl
      simp only [buildAux]
      rw [ih _ l hl.2, objGet_objSet]
      simp [hl.1]

theorem objGet_buildAux_mem (t : Tree) : ∀ (acc : Translations) (l : String)
    (files : List (String × Option Doc)),
    (dirNames t).Nodup → (l, Entry.dir files) ∈ t →
    objGet (buildAux acc t) l = some (buildLocale files) := by
  induction t with
  | nil => intro _ _ _ _ h; cases h
  | cons e rest ih =>
    intro acc l files hnd hmem
    obtain ⟨n, en⟩ := e
    rcases List.mem_cons.mp hmem with h1 | h1
    · cases h1
      simp only [dirNames] at hnd
      have hnotin : l ∉ dirNames rest := (List.nodup_cons.mp hnd).1
      simp only [buildAux]
      rw [objGet_buildAux_not_mem rest _ l hnotin, objGet_objSet]
      simp
    · cases en with
      | file =>
        simp only [dirNames] at hnd
        simpa [buildAux] using ih acc l files hnd h1
      | dir fl =>
        simp only [dirNames] at hnd
        have hln : l ∈ dirNames rest := mem_dirNames rest l files h1
        have hne : n ≠ l := fun hh => (List.nodup_cons.mp hnd).1 (hh ▸ hln)
        simp only [buildAux]
        exact ih _ l files (List.nodup_cons.mp hnd).2 h1

theorem buildLocaleAux_skip (fs1 : List (String × Option Doc)) :
    ∀ (m : Doc) (n : String) (fs2 : List (String × Option Doc)),
    buildLocaleAux m (fs1 ++ (n, none) :: fs2) = buildLocaleAux m (fs1 ++ fs2) := by
  induction fs1 with
  | nil =>
    intro m n fs2
    by_cases he : extname n = ".json" <;> simp [buildLocaleAux, he]
  | cons f rest ih =>
    intro m n fs2
    by_cases he : extname f.1 = ".json"
    · cases hc : f.2 <;> simp [buildLocaleAux, he, hc, ih]
    · simp [buildLocaleAux, he, ih]

theorem buildAux_skip_malformed (t1 : Tree) :
    ∀ (acc : Translations) (t2 : Tree) (l : String)
      (fs1 fs2 : List (String × Option Doc)) (n : String),
    buildAux acc (t1 ++ (l, Entry.dir (fs1 ++ (n, none) :: fs2)) :: t2)
      = buildAux acc (t1 ++ (l, Entry.dir (fs1 ++ fs2)) :: t2) := by
  induction t1 with
  | nil =>
    intro acc t2 l fs1 fs2 n
    simp only [List.nil_append, buildAux, buildLocale, buildLocaleAux_skip]
  | cons e rest ih =>
    intro acc t2 l fs1 fs2 n
    obtain ⟨m, em⟩ := e
    cases em <;> simp [buildAux, ih]

/-! ## Helper lemmas about the scanner -/

theorem closeParen_shape (l : List Char) (h : closeParen l = true) :
    l = '"' :: ')' :: l.drop 2 := by
  match l with
  | [] => simp [closeParen] at h
  | [a] => simp [closeParen] at h
  | a :: b :: t =>
    simp only [closeParen, Bool.and_eq_true, beq_iff_eq] at h
    simp [h.1, h.2]

theorem grabKey_decomp (cs : List Char) : ∀ (k r : List Char),
    grabKey cs = some (k, r) → cs = k ++ '"' :: ')' :: r := by
  induction cs with
  | nil => intro k r h; simp [grabKey] at h
  | cons c rest ih =>
    intro k r h
    simp only [grabKey] at h
    by_cases hlt : isLineTerminator c
    · simp [hlt] at h
    · simp only [hlt, Bool.false_eq_true, if_false] at h
      by_cases hcp : closeParen rest
      · simp only [hcp, if_true, Option.some.injEq, Prod.mk.injEq] at h
        obtain ⟨hk, hr⟩ := h
        subst hk
        subst hr
        rw [closeParen_shape rest hcp]
        simp
      · simp only [hcp, Bool.false_eq_true, if_false] at h
        cases hg : grabKey rest with
        | none => simp [hg] at h
        | some p =>
          obtain ⟨k1, r1⟩ := p
          simp only [hg, Option.some.injEq, Prod.mk.injEq] at h
          obtain ⟨hk, hr⟩ := h
          subst hk
          subst hr
          rw [List.cons_append, ih k1 r1 hg]

theorem grabKey_shape (cs : List Char) : ∀ (k r : List Char),
    grabKey cs = some (k, r) →
    k ≠ [] ∧ keyCharsOk k ∧ innerCloseFree k := by
  induction cs with
  | nil => intro k r h; simp [grabKey] at h
  | cons c rest ih =>
    intro k r h
    simp only [grabKey] at h
    by_cases hlt : isLineTerminator c
    · simp [hlt] at h
    · simp only [hlt, Bool.false_eq_true, if_false] at h
      by_cases hcp : closeParen rest
      · simp only [hcp, if_true, Option.some.injEq, Prod.mk.injEq] at h
        obtain ⟨hk, hr⟩ := h
        subst hk
        refine ⟨by simp, ?_, ?_⟩
        · intro x hx
          simp only [List.mem_singleton] at hx
          subst hx
          simpa using hlt
        · intro i h1 h2
          simp only [List.length_singleton] at h2
          omega
      · simp only [hcp, Bool.false_eq_true, if_false] at h
        cases hg : grabKey rest with
        | none => simp [hg] at h
        | some p =>
          obtain ⟨k1, r1⟩ := p
          simp only [hg, Option.some.injEq, Prod.mk.injEq] at h
          obtain ⟨hk, hr⟩ := h
          subst hk
          obtain ⟨hne, hok, hin⟩ := ih k1 r1 hg
          have hdec := grabKey_decomp rest k1 r1 hg
          refine ⟨by simp, ?_, ?_⟩
          · intro x hx
            rcases List.mem_cons.mp hx with hx | hx
            · subst hx; simpa using hlt
            · exact hok x hx
          · intro i h1 h2 hcontra
            obtain ⟨ha, hb⟩ := hcontra
            cases i with
            | zero => omega
            | succ j =>
              simp only [List.get?_cons_succ] at ha hb
              cases j with
              | zero =>
                cases k1 with
                | nil => simp at ha
                | cons x t1 =>
                  cases t1 with
                  | nil => simp at hb
                  | cons y t2 =>
                    simp only [List.get?_cons_zero, List.get?_cons_succ,
                      Option.some.injEq] at ha hb
                    subst ha
                    subst hb
                    rw [hdec] at hcp
                    simp [closeParen] at hcp
              | succ j' =>
                apply hin (j' + 1) (by omega)
                · simp only [List.length_cons] at h2
                  omega
                · exact ⟨ha, hb⟩

theorem scanFuel_shape : ∀ (fuel : Nat) (cs : List Char) (pos : Nat) (r : Reference),
    r ∈ scanFuel fuel cs pos →
    r.key ≠ "" ∧ keyCharsOk r.key.data ∧ innerCloseFree r.key.data := by
  intro fuel
  induction fuel with
  | zero => intro cs pos r h; simp [scanFuel] at h
  | succ f ih =>
    intro cs pos r h
    cases cs with
    | nil => simp [scanFuel] at h
    | cons c rest =>
      cases hm : matchTr (c :: rest) with
      | none =>
        simp only [scanFuel, hm] at h
        exact ih rest (pos + 1) r h
      | some p =>
        obtain ⟨k, after⟩ := p
        simp only [scanFuel, hm, List.mem_cons] at h
        rcases h with h1 | h1
        · subst h1
          have hg : grabKey ((c :: rest).drop 8) = some (k, after) := by
            rw [matchTr] at hm
            by_cases hp : trPat.isPrefixOf (c :: rest)
            · simpa [hp] using hm
            · simp [hp] at hm
          obtain ⟨hne, hok, hin⟩ := grabKey_shape _ k after hg
          refine ⟨?_, hok, hin⟩
          intro hh
          have hdata : k = [] := congrArg String.data hh
          exact hne hdata
        · exact ih after _ r h1

/-! ## Claims -/

/-- Claim C1, counterexample.  The claim states that an intersecting
(hovered) reference gets an inline payload and a non-intersecting one gets
a hover payload.  The code does the opposite: here a reference whose range
intersects the selection, with the preferred locale set, receives no inline
payload (it receives the hover payload instead), and the same reference
under a non-intersecting selection receives no hover payload. -/
theorem c1_plan_branches_counterexample :
    rangesIntersect 10 12 8 13 = true ∧
    (plan [("en", [("greet", "Hi")]), ("fr", [("greet", "Salut")])] (some "fr") 10 12
        [Reference.mk "greet" 8 13]).2 = [] ∧
    (plan [("en", [("greet", "Hi")]), ("fr", [("greet", "Salut")])] (some "fr") 10 12
        [Reference.mk "greet" 8 13]).1
      = [HoverPayload.mk (Reference.mk "greet" 8 13) ["en: Hi", "fr: Salut"]] ∧
    rangesIntersect 20 25 8 13 = false ∧
    (plan [("en", [("greet", "Hi")]), ("fr", [("greet", "Salut")])] (some "fr") 20 25
        [Reference.mk "greet" 8 13]).1 = [] := by decide

/-- Claim C1, amended.  For every reference whose sourceRange intersects
the selection, plan produces a hover payload with one line per locale
present in the index; for every reference whose sourceRange does not
intersect the selection, when the preferred locale is set, plan produces an
inline payload resolving the key in that locale (raw key as fallback). -/
theorem c1_plan_branches (t : Translations) (dl : Option String) (ss se : Nat)
    (refs : List Reference) (r : Reference) (hr : r ∈ refs) :
    (rangesIntersect ss se r.start r.stop = true →
      HoverPayload.mk r (hoverLines t r.key) ∈ (plan t dl ss se refs).1) ∧
    (rangesIntersect ss se r.start r.stop = false → ∀ l, dl = some l →
      InlinePayload.mk r (inlineText t (some l) r.key) ∈ (plan t dl ss se refs).2) := by
  constructor
  · exact fun hi => mem_plan_hover t dl ss se refs r hr hi
  · intro hni l hl
    subst hl
    exact mem_plan_inline t (some l) ss se refs r hr hni

/-- Claim C1, witness for the amended theorem at a concrete input. -/
theorem c1_plan_branches_witness :
    HoverPayload.mk (Reference.mk "greet" 8 13) ["en: Hi"]
      ∈ (plan [("en", [("greet", "Hi")])] (some "en") 10 12 [Reference.mk "greet" 8 13]).1 :=
  (c1_plan_branches [("en", [("greet", "Hi")])] (some "en") 10 12
      [Reference.mk "greet" 8 13] (Reference.mk "greet" 8 13) (by decide)).1 (by decide)

/-- Claim C2.  With index en: greet is Hi, fr: greet is Salut, and
preferred locale fr: a reference to greet whose range does not intersect
the selection yields exactly one inline payload with text Salut and no
hover payload; one whose range intersects the selection yields exactly one
hover payload whose lines are the en and fr lines, and no inline payload. -/
theorem c2_greet_example :
    plan [("en", [("greet", "Hi")]), ("fr", [("greet", "Salut")])] (some "fr") 20 25
        [Reference.mk "greet" 8 13]
      = ([], [InlinePayload.mk (Reference.mk "greet" 8 13) "Salut"]) ∧
    plan [("en", [("greet", "Hi")]), ("fr", [("greet", "Salut")])] (some "fr") 10 12
        [Reference.mk "greet" 8 13]
      = ([HoverPayload.mk (Reference.mk "greet" 8 13) ["en: Hi", "fr: Salut"]], []) := by
  decide

/-- Claim C3.  For a root listing whose directory names are distinct (as a
real directory listing's are), the built index has exactly the immediate
subdirectories as locales, in listing order, and each locale's mapping
resolves every key to the value of the later-listed json document
containing it (the union of the documents' pairs with
last-listed-document-wins). -/
theorem c3_build_characterization (t : Tree) (hnd : (dirNames t).Nodup) :
    (build t).map Prod.fst = dirNames t ∧
    ∀ l files, (l, Entry.dir files) ∈ t →
      objGet (build t) l = some (buildLocale files) ∧
      ∀ k, objGet (buildLocale files) k = lastDocWins (jsonDocs files) k := by
  constructor
  · have h := map_fst_buildAux t [] hnd (by intro n _; simp)
    simpa [build] using h
  · intro l files hmem
    exact ⟨objGet_buildAux_mem t [] l files hnd hmem,
      fun k => objGet_buildLocale files k⟩

/-- Claim C3, witness at a concrete well-formed tree. -/
theorem c3_build_characterization_witness :
    (build [("en", Entry.dir [("a.json", some [("x", "1")])]),
        ("fr", Entry.dir [])]).map Prod.fst = ["en", "fr"] ∧
    objGet (build [("en", Entry.dir [("a.json", some [("x", "1")])]),
        ("fr", Entry.dir [])]) "en" = some (buildLocale [("a.json", some [("x", "1")])]) :=
  ⟨(c3_build_characterization
      [("en", Entry.dir [("a.json", some [("x", "1")])]), ("fr", Entry.dir [])]
      (by decide)).1,
    ((c3_build_characterization
      [("en", Entry.dir [("a.json", some [("x", "1")])]), ("fr", Entry.dir [])]
      (by decide)).2 "en" [("a.json", some [("x", "1")])] (by decide)).1⟩

/-- Claim C4.  A document whose JSON parse fails contributes nothing to the
index and blocks nothing: removing it from any position of any locale
directory of any root listing leaves the build unchanged; concretely, a
root with one malformed and two well-formed documents yields exactly the
two well-formed documents' keys (the build is a total function, so nothing
is raised to the caller). -/
theorem c4_malformed_document_skipped :
    (∀ (t1 t2 : Tree) (l n : String) (fs1 fs2 : List (String × Option Doc)),
      build (t1 ++ (l, Entry.dir (fs1 ++ (n, none) :: fs2)) :: t2)
        = build (t1 ++ (l, Entry.dir (fs1 ++ fs2)) :: t2)) ∧
    build [("en", Entry.dir [("a.json", some [("k1", "v1")]), ("bad.json", none),
        ("b.json", some [("k2", "v2")])])]
      = [("en", [("k1", "v1"), ("k2", "v2")])] := by
  constructor
  · intro t1 t2 l n fs1 fs2
    exact buildAux_skip_malformed t1 [] t2 l fs1 fs2 n
  · decide

/-- Claim C5.  The workspace-folder-removed handler disposes only
`decorationType`: on a session with a rendered hover set, a rendered inline
set and both watchers open, it clears the hover decorations but leaves the
inline decorations rendered and both fs.watch subscriptions open,
contradicting the claim that all watchers are released and all rendered
annotations cleared. -/
theorem c5_removal_partial_cleanup :
    handleWorkspaceFolderRemoved
        (SessionWorld.mk [Reference.mk "greet" 8 13] [Reference.mk "title" 30 35] true true)
      = SessionWorld.mk [] [Reference.mk "title" 30 35] true true := by decide

/-- Claim C6, counterexample.  The adoption guard is a plain string prefix
test on fsPath: a file in the sibling directory `/home/u/app2` passes the
guard of the root `/home/u/app` and is adopted and processed, although it
does not lie under that root directory. -/
theorem c6_prefix_guard_counterexample :
    editorMatchesWorkspace "/home/u/app" (EditorDoc.mk "file" "/home/u/app2/main.go") = true ∧
    documentLiesUnderRoot "/home/u/app" "/home/u/app2/main.go" = false ∧
    handleActiveEditorChange "/home/u/app" (some (EditorDoc.mk "file" "/home/u/app2/main.go"))
        (SessState.mk none 0)
      = SessState.mk (some (EditorDoc.mk "file" "/home/u/app2/main.go")) 1 := by decide

/-- Claim C6, amended.  A document is adopted and processed by a session
only if it passes the guard: its URI scheme is `file` and its fsPath starts
(as a string prefix, which also admits sibling directories extending the
root's name) with the root's fsPath; any editor failing the guard leaves
the session untouched — nothing is scanned or annotated for it. -/
theorem c6_guard_necessary (rootFsPath : String) (d : EditorDoc) (st : SessState)
    (h : editorMatchesWorkspace rootFsPath d = false) :
    handleActiveEditorChange rootFsPath (some d) st = st := by
  simp [handleActiveEditorChange, h]

/-- Claim C6, witness for the amended theorem at a concrete input. -/
theorem c6_guard_necessary_witness :
    handleActiveEditorChange "/home/u/app" (some (EditorDoc.mk "untitled" "/home/u/app/x.go"))
        (SessState.mk none 0)
      = SessState.mk none 0 :=
  c6_guard_necessary "/home/u/app" (EditorDoc.mk "untitled" "/home/u/app/x.go")
    (SessState.mk none 0) (by decide)

/-- Claim C7, counterexample.  With the preferred display locale unset, an
inline payload is still produced for a non-intersecting reference (its text
falls back to the raw key), so inline annotations are not disabled. -/
theorem c7_counterexample :
    (plan [("en", [("greet", "Hi")])] none 30 40 [Reference.mk "greet" 8 13]).2
      = [InlinePayload.mk (Reference.mk "greet" 8 13) "greet"] ∧
    (plan [("en", [("greet", "Hi")])] none 30 40 [Reference.mk "greet" 8 13]).2 ≠ [] := by
  decide

/-- Claim C7, amended.  When the preferred display locale is unset, every
reference not intersecting the selection still receives an inline payload;
its content degrades to the raw key string (hover payloads are unchanged). -/
theorem c7_inline_raw_key_when_unset (t : Translations) (ss se : Nat)
    (refs : List Reference) (r : Reference) (hr : r ∈ refs)
    (hni : rangesIntersect ss se r.start r.stop = false) :
    InlinePayload.mk r r.key ∈ (plan t none ss se refs).2 :=
  mem_plan_inline t none ss se refs r hr hni

/-- Claim C7, witness for the amended theorem at a concrete input. -/
theorem c7_inline_raw_key_when_unset_witness :
    InlinePayload.mk (Reference.mk "greet" 8 13) "greet"
      ∈ (plan [("en", [("greet", "Hi")])] none 30 40 [Reference.mk "greet" 8 13]).2 :=
  c7_inline_raw_key_when_unset [("en", [("greet", "Hi")])] 30 40
    [Reference.mk "greet" 8 13] (Reference.mk "greet" 8 13) (by decide) (by decide)

/-- Claim C8, counterexample.  The lazy pattern stops at the first quote
followed by a closing parenthesis, so a key may contain an unescaped double
quote: scanning `ctx.Tr("a"b")` produces the single key `a"b`, which
contains an unescaped double quote. -/
theorem c8_key_shape_counterexample :
    scan "ctx.Tr(\"a\"b\")" = [Reference.mk "a\"b" 8 11] ∧
    hasUnescapedQuote "a\"b" = true := by decide

/-- Claim C8, amended.  Every key the scanner produces is a nonempty run of
non-line-terminator characters in which no quote-then-closing-parenthesis
sequence begins at any position after the first (the shortest-match
guarantee); keys may contain unescaped double quotes. -/
theorem c8_scanned_key_shape (s : String) (r : Reference) (h : r ∈ scan s) :
    r.key ≠ "" ∧ keyCharsOk r.key.data ∧ innerCloseFree r.key.data :=
  scanFuel_shape s.data.length s.data 0 r h

/-- Claim C8, witness for the amended theorem at a concrete input. -/
theorem c8_scanned_key_shape_witness :
    (Reference.mk "hello.world" 8 19).key ≠ ""
      ∧ keyCharsOk (Reference.mk "hello.world" 8 19).key.data
      ∧ innerCloseFree (Reference.mk "hello.world" 8 19).key.data :=
  c8_scanned_key_shape "ctx.Tr(\"hello.world\")" (Reference.mk "hello.world" 8 19) (by decide)

/-- Claim C9.  Scanning the exact text `ctx.Tr("hello.world")` produces
exactly one reference, with key hello.world and the half-open offset range
8 to 19, covering only the characters of the key. -/
theorem c9_scan_single_reference :
    scan "ctx.Tr(\"hello.world\")" = [Reference.mk "hello.world" 8 19] := by decide

/-- Claim C10.  When a locale's mapping takes a key to the empty string,
the raw-key fallback fires both in that locale's hover line and in the
inline payload text for that locale as the preferred one: the JS
or-fallback treats the empty string as falsy. -/
theorem c10_empty_value_falls_back (t : Translations) (l : String) (m : Doc) (k : String)
    (h1 : objGet t l = some m) (h2 : objGet m k = some "") :
    inlineText t (some l) k = k ∧ (l ++ ": " ++ k) ∈ hoverLines t k := by
  constructor
  · simp [inlineText, lookupPref, h1, h2, jsOr]
  · have hm := objGet_mem t l m h1
    have hx : (l ++ ": " ++ jsOr (objGet m k) k) ∈ hoverLines t k :=
      List.mem_map_of_mem _ hm
    simpa [h2, jsOr] using hx

/-- Claim C10, witness at a concrete input. -/
theorem c10_empty_value_falls_back_witness :
    inlineText [("en", [("x", "")])] (some "en") "x" = "x" ∧
    ("en" ++ ": " ++ "x") ∈ hoverLines [("en", [("x", "")])] "x" :=
  c10_empty_value_falls_back [("en", [("x", "")])] "en" [("x", "")] "x"
    (by decide) (by decide)

end IrisI18n
